import Mathlib

/-!
A verification development for semblance's PE section scanner
(`src/pe_section.c`): address translation, import/export name lookup,
the recursive control-flow scanner `scan_segment` over per-byte
classification maps, and the linear disassembly renderer
`print_disassembly`.

Addresses and sizes are modelled as natural numbers.  The source's
32-bit unsigned wraparound is modelled explicitly (via `wsub`) in
`get_imported_name`, where subtraction of the image base and of the
name-table base can genuinely wrap on in-range inputs; elsewhere the
arithmetic never wraps for well-formed images and is modelled with
plain natural-number arithmetic.  The external instruction decoder
(`get_instr`) is a parameter of the scanner and renderer, producing
the fields of `struct instr` that `pe_section.c` consumes.  The
backing file is a list of bytes; reads past its end yield zero, as the
source's `memset`+`fread` does.
-/

namespace Semblance

/-- 2^32, the modulus of the source's `dword` arithmetic. -/
def WSIZE : Nat := 4294967296

/-- `dword` subtraction `a - b` (wrapping), for `a`, `b` in range. -/
def wsub (a b : Nat) : Nat := (a + WSIZE - b % WSIZE) % WSIZE

/-- `MAX_INSTR`: size of the byte window handed to the decoder. -/
def MAX_INSTR : Nat := 16

/-- The fields of `struct section` that `pe_section.c` reads. -/
structure Sec where
  address : Nat
  offset : Nat
  length : Nat
  minAlloc : Nat
  secFlags : Nat
deriving DecidableEq

/-- An entry of the import table: a name table at a given relative
address with `count` slots of `sizeof(dword)` bytes each. -/
structure ImportGroup where
  nametabAddr : Nat
  count : Nat
  nametab : List String
deriving DecidableEq

/-- The fields of `struct pe` that `pe_section.c` reads. -/
structure Pe where
  sections : List Sec
  exports : List (Nat × String)
  imports : List ImportGroup
  imageBase : Nat
  entryPoint : Nat
  characteristics : Nat
deriving DecidableEq

/-- The per-byte classification bits `INSTR_VALID`, `INSTR_SCANNED`,
`INSTR_FUNC`, `INSTR_JUMP`, modelled as a record of booleans. -/
structure InstrFlags where
  valid : Bool
  scanned : Bool
  func : Bool
  jump : Bool
deriving DecidableEq

def InstrFlags.empty : InstrFlags := ⟨false, false, false, false⟩

/-- What the external decoder `get_instr` returns, restricted to the
fields `pe_section.c` consumes: the instruction length, whether
`instr.op.flags` has `OP_BRANCH` / `OP_STOP`, whether the op name is
`"call"`, and the branch target `instr.arg0`. -/
structure Instr where
  len : Nat
  isBranch : Bool
  isCall : Bool
  isStop : Bool
  target : Nat
deriving DecidableEq

/-- `addr2section`, indexed walk: returns the index and the section of
the first section whose `[address, address + min_alloc)` range
contains `addr`. -/
def addr2sectionAux (addr : Nat) : List Sec → Nat → Option (Nat × Sec)
  | [], _ => none
  | s :: rest, i =>
    if s.address ≤ addr ∧ addr < s.address + s.minAlloc then some (i, s)
    else addr2sectionAux addr rest (i + 1)

/-- `addr2section` from `pe_section.c`. -/
def addr2section (addr : Nat) (pe : Pe) : Option (Nat × Sec) :=
  addr2sectionAux addr pe.sections 0

/-- `addr2offset` from `pe_section.c`: `0` when no section contains
`addr`, else `addr - section->address + section->offset`. -/
def addr2offset (addr : Nat) (pe : Pe) : Nat :=
  match addr2section addr pe with
  | none => 0
  | some (_, sec) => addr - sec.address + sec.offset

/-- `get_export_name`: linear search of the export table for an exact
address match. -/
def getExportName (ip : Nat) (pe : Pe) : Option String :=
  (pe.exports.find? (fun e => e.1 == ip)).map Prod.snd

/-- The loop of `get_imported_name`: for each group in order, divide
the (wrapped) distance to the name table by `sizeof(dword)` and test
the quotient against `count`. -/
def importLoop (offset : Nat) : List ImportGroup → Option String
  | [] => none
  | g :: gs =>
    let index := wsub offset g.nametabAddr / 4
    if index < g.count then some (g.nametab.getD index "")
    else importLoop offset gs

/-- `get_imported_name` from `pe_section.c`: subtract the image base
(wrapping `dword` subtraction) and walk the import groups. -/
def getImportedName (addr : Nat) (pe : Pe) : Option String :=
  importLoop (wsub addr pe.imageBase) pe.imports

/-- Modelled from the spec (§4.2): the specification's description of
`import_name`, rendered as a first-match search over the groups with
the floor-divided index tested against `count`.  Used to state the
amended C5 as a refinement of the code's recursion. -/
def importNameSpec (addr : Nat) (pe : Pe) : Option String :=
  (pe.imports.find? fun g =>
      decide (wsub (wsub addr pe.imageBase) g.nametabAddr / 4 < g.count)).map
    fun g => g.nametab.getD (wsub (wsub addr pe.imageBase) g.nametabAddr / 4) ""

/-- Basic facts about a successful `addr2sectionAux` search. -/
theorem addr2sectionAux_spec (addr : Nat) :
    ∀ (l : List Sec) (k si : Nat) (sec : Sec),
      addr2sectionAux addr l k = some (si, sec) →
      k ≤ si ∧ l.get? (si - k) = some sec ∧
        sec.address ≤ addr ∧ addr < sec.address + sec.minAlloc := by
  intro l
  induction l with
  | nil => intro k si sec h; simp [addr2sectionAux] at h
  | cons s rest ih =>
    intro k si sec h
    simp only [addr2sectionAux] at h
    by_cases hc : s.address ≤ addr ∧ addr < s.address + s.minAlloc
    · rw [if_pos hc] at h
      obtain ⟨h1, h2⟩ := Prod.mk.injEq .. ▸ Option.some.injEq .. ▸ h
      subst h1; subst h2
      simpa using hc
    · rw [if_neg hc] at h
      obtain ⟨hk, hget, hlo, hhi⟩ := ih (k + 1) si sec h
      refine ⟨by omega, ?_, hlo, hhi⟩
      have : si - k = (si - (k + 1)) + 1 := by omega
      rw [this]
      simpa using hget

/-- A successful `addr2section` lookup returns an in-range index, the
section stored at that index, and containment of `addr`. -/
theorem addr2section_spec (addr : Nat) (pe : Pe) (si : Nat) (sec : Sec)
    (h : addr2section addr pe = some (si, sec)) :
    pe.sections.get? si = some sec ∧
      sec.address ≤ addr ∧ addr < sec.address + sec.minAlloc := by
  obtain ⟨_, hget, hlo, hhi⟩ := addr2sectionAux_spec addr pe.sections 0 si sec h
  exact ⟨by simpa using hget, hlo, hhi⟩

/-- Claim C4 (amended): whenever `addr2section` finds a section,
`addr2offset` returns `section.offset + (addr - section.address)`;
when no section contains the address, it returns the sentinel `0`,
which is the same value as a legitimate zero file offset. -/
theorem addr2offset_spec :
    (∀ (addr : Nat) (pe : Pe) (si : Nat) (sec : Sec),
        addr2section addr pe = some (si, sec) →
        addr2offset addr pe = sec.offset + (addr - sec.address)) ∧
    (∀ (addr : Nat) (pe : Pe),
        addr2section addr pe = none → addr2offset addr pe = 0) := by
  constructor
  · intro addr pe si sec h
    unfold addr2offset
    rw [h]
    dsimp only
    omega
  · intro addr pe h
    unfold addr2offset
    rw [h]

/-- A one-section image used to refute the distinguishability part of
claim C4. -/
def peC4 : Pe :=
  { sections := [⟨16, 0, 8, 8, 0⟩]
    exports := []
    imports := []
    imageBase := 0
    entryPoint := 16
    characteristics := 0 }

/-- Claim C4, counterexample: address `100` is contained in no section
of `peC4`, yet `addr2offset` returns `0` for it — exactly the value it
returns for address `16`, which *is* mapped (first byte of a section
whose file offset is `0`).  The "not mapped" result is therefore not
distinguishable from a legitimate zero offset. -/
theorem addr2offset_not_distinguishable :
    addr2section 100 peC4 = none ∧ addr2offset 100 peC4 = 0 ∧
      addr2section 16 peC4 = some (0, ⟨16, 0, 8, 8, 0⟩) ∧
      addr2offset 16 peC4 = 0 := by
  refine ⟨?_, ?_, ?_, ?_⟩ <;> rfl

/-- Witness for `addr2offset_spec`: both mapped and unmapped cases at
concrete inputs. -/
theorem addr2offset_spec_witness :
    addr2offset 18 peC4 = (0 : Nat) + (18 - 16) ∧ addr2offset 100 peC4 = 0 := by
  constructor
  · exact addr2offset_spec.1 18 peC4 0 ⟨16, 0, 8, 8, 0⟩ rfl
  · exact addr2offset_spec.2 100 peC4 rfl

/-- Claim C5 (amended): `get_imported_name` subtracts the image base
(wrapping) and returns the name at index
`(addr - base - nametab_addr) / sizeof(dword)` (floor division — the
source never checks that the division is even) of the first group for
which that index is below `count`; if no group qualifies it returns
`none`.  Stated as equality with the spec-shaped first-match search. -/
theorem getImportedName_eq_spec (addr : Nat) (pe : Pe) :
    getImportedName addr pe = importNameSpec addr pe := by
  unfold getImportedName importNameSpec
  generalize wsub addr pe.imageBase = off
  induction pe.imports with
  | nil => rfl
  | cons g gs ih =>
    simp only [importLoop, List.find?]
    by_cases h : wsub off g.nametabAddr / 4 < g.count
    · rw [if_pos h, decide_eq_true h]
      rfl
    · rw [if_neg h, decide_eq_false h]
      simpa using ih

/-- A one-group import table used to refute the "divided evenly"
part of claim C5. -/
def peC5 : Pe :=
  { sections := []
    exports := []
    imports := [⟨0, 1, ["ImportedProc"]⟩]
    imageBase := 0
    entryPoint := 0
    characteristics := 0 }

/-- Claim C5, counterexample: at address `2` the distance to the name
table is `2`, which `sizeof(dword) = 4` does not divide evenly, yet
`get_imported_name` returns the group's name at index `2 / 4 = 0`
(the claim requires `none` when no group yields an evenly-divided
in-range index). -/
theorem getImportedName_not_even :
    getImportedName 2 peC5 = some "ImportedProc" ∧
      ¬ (4 ∣ wsub (wsub 2 peC5.imageBase) ((peC5.imports.getD 0 ⟨0, 0, []⟩).nametabAddr)) := by
  constructor
  · rfl
  · decide

/-- The diagnostics `warn_at` can emit during scanning, each carrying
the `ip` current at the emission point. -/
inductive Warning where
  | notInImage (ip : Nat)
  | midInstruction (ip : Nat)
  | branchNotInImage (ip target : Nat)
  | endOfSection (ip : Nat)
deriving DecidableEq

/-- The mutable state of the scan: one classification map per section
index (`sec->instr_flags`), plus the diagnostics emitted so far. -/
structure ScanState where
  maps : Nat → Nat → InstrFlags
  warnings : List Warning

def emptyScanState : ScanState := ⟨fun _ _ => InstrFlags.empty, []⟩

def pushWarn (s : ScanState) (w : Warning) : ScanState :=
  { s with warnings := s.warnings ++ [w] }

/-- Update one byte's flags in one section's map. -/
def updMap (m : Nat → Nat → InstrFlags) (si b : Nat)
    (f : InstrFlags → InstrFlags) : Nat → Nat → InstrFlags :=
  fun i b' => if i = si ∧ b' = b then f (m i b') else m i b'

/-- The marking loop of `scan_segment` (line 198): set `INSTR_SCANNED`
on `count` consecutive bytes starting at `lo` in section `si`'s map. -/
def markScannedMap (si : Nat) :
    (Nat → Nat → InstrFlags) → Nat → Nat → (Nat → Nat → InstrFlags)
  | m, _, 0 => m
  | m, lo, c + 1 =>
    markScannedMap si (updMap m si lo fun fl => { fl with scanned := true }) (lo + 1) c

/-- The decode window (scanner lines 191–194, renderer lines 146–148):
`MAX_INSTR` bytes starting at `section->offset + relip`, reading
`min(MAX_INSTR, length - relip)` bytes from the file and zero-filling
the rest (and anything the file is too short to supply). -/
def window (file : List Nat) (sec : Sec) (relip : Nat) : List Nat :=
  (List.range MAX_INSTR).map fun j =>
    if j < sec.length - relip then (file.get? (sec.offset + relip + j)).getD 0 else 0

/-- The `while (relip < sec->length)` loop of `scan_segment`
(lines 186–231), with the recursive `scan_segment` call abstracted as
`rec` and a fuel bounding the number of iterations (`none` means the
fuel ran out; `scanSegment_isSome` below shows fuel linear in the
total number of section bytes always suffices). -/
def scanLoopWith (rec : Nat → ScanState → Option ScanState)
    (decode : Nat → List Nat → Instr) (file : List Nat) (pe : Pe)
    (si : Nat) (sec : Sec) : Nat → Nat → ScanState → Option ScanState
  | 0, _, _ => none
  | fuel + 1, ip, s =>
    let relip := ip - sec.address
    if relip < sec.length then
      if (s.maps si relip).scanned then some s
      else
        let n := decode ip (window file sec relip)
        let s1 : ScanState :=
          { s with maps := updMap s.maps si relip fun fl => { fl with valid := true } }
        let hi := min (relip + n.len) sec.minAlloc
        let s2 : ScanState := { s1 with maps := markScannedMap si s1.maps relip (hi - relip) }
        let iEnd := max relip hi
        if iEnd < ip + n.len ∧ iEnd = sec.minAlloc then
          some (pushWarn s2 (Warning.endOfSection ip))
        else
          (if n.isBranch then
            match addr2section n.target pe with
            | some (ti, tsec) =>
              let s3 : ScanState :=
                { s2 with maps := updMap s2.maps ti (n.target - tsec.address) fun fl =>
                    if n.isCall then { fl with func := true } else { fl with jump := true } }
              rec n.target s3
            | none => some (pushWarn s2 (Warning.branchNotInImage ip n.target))
          else some s2).bind fun s4 =>
            if n.isStop then some s4
            else scanLoopWith rec decode file pe si sec fuel (ip + n.len) s4
    else some (pushWarn s (Warning.endOfSection ip))

/-- `scan_segment` (lines 162–232): resolve the entry's section (warn
and stop when it is not in the image), warn when re-entering a byte
that is `SCANNED` but not `VALID`, then run the scan loop.  Branch
targets recurse with the remaining fuel. -/
def scanSegment (decode : Nat → List Nat → Instr) (file : List Nat) (pe : Pe) :
    Nat → Nat → ScanState → Option ScanState
  | 0, _, _ => none
  | fuel + 1, ip, s =>
    match addr2section ip pe with
    | none => some (pushWarn s (Warning.notInImage ip))
    | some (si, sec) =>
      let relip := ip - sec.address
      let s1 := if (s.maps si relip).scanned = true ∧ (s.maps si relip).valid = false
                then pushWarn s (Warning.midInstruction ip) else s
      scanLoopWith (fun t s' => scanSegment decode file pe fuel t s') decode file pe si sec fuel ip s1

/-- The entry addresses `read_sections` scans: every export address,
then the image entry point unless characteristics bit `0x2000` is
set. -/
def entryList (pe : Pe) : List Nat :=
  pe.exports.map Prod.fst ++
    (if pe.characteristics &&& 0x2000 ≠ 0 then [] else [pe.entryPoint])

/-- Run `scan_segment` once per entry address, threading the state. -/
def scanEntries (decode : Nat → List Nat → Instr) (file : List Nat) (pe : Pe)
    (fuel : Nat) : List Nat → ScanState → Option ScanState
  | [], s => some s
  | e :: es, s => (scanSegment decode file pe fuel e s).bind (scanEntries decode file pe fuel es)

/-- `read_sections` (lines 277–291): scan from every export address,
then from the entry point unless the image is flagged as having
none. -/
def readSections (decode : Nat → List Nat → Instr) (file : List Nat) (pe : Pe)
    (fuel : Nat) (s : ScanState) : Option ScanState :=
  scanEntries decode file pe fuel (entryList pe) s

/-- An arbitrary sequence of `scan_segment` invocations, each with its
own fuel. -/
def scanSeq (decode : Nat → List Nat → Instr) (file : List Nat) (pe : Pe) :
    List (Nat × Nat) → ScanState → Option ScanState
  | [], s => some s
  | (fuel, ip) :: cs, s =>
    (scanSegment decode file pe fuel ip s).bind (scanSeq decode file pe cs)

/-- One line of renderer output: a gap marker (`"     ..."`), a
function-label header (export name, or none for `<no name>`), or one
disassembled instruction line at `ip` of the decoded length. -/
inductive Event where
  | gap
  | header (name : Option String)
  | instr (ip : Nat) (len : Nat)
deriving DecidableEq

/-- Length of the run of zero bytes in `file` starting at absolute
position `p`, computed with explicit fuel (a read past the end of the
file does not return the byte `0`, so the run always ends). -/
def zrunF (file : List Nat) : Nat → Nat → Nat
  | 0, _ => 0
  | f + 1, p => if file.get? p = some 0 then zrunF file f (p + 1) + 1 else 0

/-- Length of the run of zero bytes in `file` starting at `p`. -/
def zrun (file : List Nat) (p : Nat) : Nat := zrunF file (file.length - p) p

/-- The default-mode skip loop of `print_disassembly` (line 136):
advance while inside `length`, inside `min_alloc`, and not `VALID`,
with explicit fuel. -/
def skipValidF (sec : Sec) (m : Nat → Nat → InstrFlags) (si : Nat) :
    Nat → Nat → Nat
  | 0, relip => relip
  | f + 1, relip =>
    if relip < sec.length ∧ relip < sec.minAlloc ∧ (m si relip).valid = false
    then skipValidF sec m si f (relip + 1) else relip

/-- The default-mode skip loop of `print_disassembly` (line 136). -/
def skipValid (sec : Sec) (m : Nat → Nat → InstrFlags) (si : Nat) (relip : Nat) : Nat :=
  skipValidF sec m si (min sec.length sec.minAlloc - relip) relip

/-- The tail of one `print_disassembly` iteration after the gap
handling (lines 140–157): return when the cursor reached `length` or
`min_alloc`, otherwise print a function header at `FUNC` bytes, print
one instruction, and continue at `relip + len` via `next`. -/
def renderResume (decode : Nat → List Nat → Instr) (file : List Nat) (pe : Pe)
    (sec : Sec) (si : Nat) (m : Nat → Nat → InstrFlags)
    (next : Nat → List Event) (relip : Nat) : List Event :=
  if relip ≥ sec.length ∨ relip ≥ sec.minAlloc then []
  else
    let ip := relip + sec.address
    let n := decode ip (window file sec relip)
    (if (m si relip).func then [Event.header (getExportName ip pe)] else []) ++
      (Event.instr ip n.len :: next (relip + n.len))

/-- `print_disassembly` (lines 116–160) as the list of lines it
prints, driven by fuel over loop iterations.  At a non-`VALID` offset:
in disassemble-all mode, a first zero byte prints one gap marker and
advances once, then the `while (read_byte() == 0)` loop — whose reads
start one byte *after* the current cursor — advances the cursor once
per zero read; in default mode one gap marker is printed and the
cursor skips to the next `VALID` byte within `length` and
`min_alloc`. -/
def printDisassembly (decode : Nat → List Nat → Instr) (file : List Nat) (pe : Pe)
    (sec : Sec) (si : Nat) (m : Nat → Nat → InstrFlags) (allMode : Bool) :
    Nat → Nat → List Event
  | 0, _ => []
  | fuel + 1, relip =>
    if relip < sec.length then
      if (m si relip).valid then
        renderResume decode file pe sec si m
          (fun r => printDisassembly decode file pe sec si m allMode fuel r) relip
      else if allMode then
        if file.get? (sec.offset + relip) = some 0 then
          Event.gap :: renderResume decode file pe sec si m
            (fun r => printDisassembly decode file pe sec si m allMode fuel r)
            (relip + 1 + zrun file (sec.offset + relip + 1))
        else
          renderResume decode file pe sec si m
            (fun r => printDisassembly decode file pe sec si m allMode fuel r)
            (relip + zrun file (sec.offset + relip + 1))
      else
        Event.gap :: renderResume decode file pe sec si m
          (fun r => printDisassembly decode file pe sec si m allMode fuel r)
          (skipValid sec m si relip)
    else []

/-! ### Pointwise characterizations of the map updates -/

theorem pushWarn_maps (s : ScanState) (w : Warning) : (pushWarn s w).maps = s.maps := rfl

theorem updMap_apply (m : Nat → Nat → InstrFlags) (si b : Nat)
    (f : InstrFlags → InstrFlags) (i b' : Nat) :
    updMap m si b f i b' = if i = si ∧ b' = b then f (m i b') else m i b' := rfl

theorem markScannedMap_apply (si : Nat) :
    ∀ (c : Nat) (m : Nat → Nat → InstrFlags) (lo i b : Nat),
      markScannedMap si m lo c i b =
        if i = si ∧ lo ≤ b ∧ b < lo + c then { m i b with scanned := true } else m i b := by
  intro c
  induction c with
  | zero =>
    intro m lo i b
    rw [markScannedMap, if_neg (by omega)]
  | succ c ih =>
    intro m lo i b
    rw [markScannedMap, ih]
    simp only [updMap_apply]
    by_cases hi : i = si
    · by_cases hbl : b = lo
      · have h1 : ¬(i = si ∧ lo + 1 ≤ b ∧ b < lo + 1 + c) := by omega
        have h2 : i = si ∧ b = lo := ⟨hi, hbl⟩
        have h3 : i = si ∧ lo ≤ b ∧ b < lo + (c + 1) := by omega
        rw [if_neg h1, if_pos h2, if_pos h3]
      · have h2 : ¬(i = si ∧ b = lo) := fun h => hbl h.2
        by_cases hr : lo + 1 ≤ b ∧ b < lo + 1 + c
        · have h1 : i = si ∧ lo + 1 ≤ b ∧ b < lo + 1 + c := ⟨hi, hr⟩
          have h3 : i = si ∧ lo ≤ b ∧ b < lo + (c + 1) := by omega
          rw [if_pos h1, if_neg h2, if_pos h3]
        · have h1 : ¬(i = si ∧ lo + 1 ≤ b ∧ b < lo + 1 + c) := by omega
          have h3 : ¬(i = si ∧ lo ≤ b ∧ b < lo + (c + 1)) := by omega
          rw [if_neg h1, if_neg h2, if_neg h3]
    · have h1 : ¬(i = si ∧ lo + 1 ≤ b ∧ b < lo + 1 + c) := fun h => hi h.1
      have h2 : ¬(i = si ∧ b = lo) := fun h => hi h.1
      have h3 : ¬(i = si ∧ lo ≤ b ∧ b < lo + (c + 1)) := fun h => hi h.1
      rw [if_neg h1, if_neg h2, if_neg h3]

/-! ### Monotonicity: scanning only sets classification bits -/

/-- `FlagsLe a b`: every bit set in `a` is set in `b`. -/
def FlagsLe (a b : InstrFlags) : Prop :=
  (a.valid = true → b.valid = true) ∧ (a.scanned = true → b.scanned = true) ∧
    (a.func = true → b.func = true) ∧ (a.jump = true → b.jump = true)

/-- `MapsLe m m'`: pointwise `FlagsLe` over all sections and bytes. -/
def MapsLe (m m' : Nat → Nat → InstrFlags) : Prop := ∀ i b, FlagsLe (m i b) (m' i b)

theorem flagsLe_refl (a : InstrFlags) : FlagsLe a a := ⟨id, id, id, id⟩

theorem flagsLe_trans {a b c : InstrFlags} (h1 : FlagsLe a b) (h2 : FlagsLe b c) :
    FlagsLe a c :=
  ⟨fun h => h2.1 (h1.1 h), fun h => h2.2.1 (h1.2.1 h),
    fun h => h2.2.2.1 (h1.2.2.1 h), fun h => h2.2.2.2 (h1.2.2.2 h)⟩

theorem mapsLe_refl (m : Nat → Nat → InstrFlags) : MapsLe m m := fun _ _ => flagsLe_refl _

theorem mapsLe_trans {m1 m2 m3 : Nat → Nat → InstrFlags}
    (h1 : MapsLe m1 m2) (h2 : MapsLe m2 m3) : MapsLe m1 m3 :=
  fun i b => flagsLe_trans (h1 i b) (h2 i b)

theorem mapsLe_updMap (m : Nat → Nat → InstrFlags) (si b : Nat)
    (f : InstrFlags → InstrFlags) (hf : ∀ fl, FlagsLe fl (f fl)) :
    MapsLe m (updMap m si b f) := by
  intro i b'
  rw [updMap_apply]
  by_cases h : i = si ∧ b' = b
  · rw [if_pos h]; exact hf _
  · rw [if_neg h]; exact flagsLe_refl _

theorem flagsLe_setValid (fl : InstrFlags) : FlagsLe fl { fl with valid := true } :=
  ⟨fun _ => rfl, id, id, id⟩

theorem flagsLe_setScanned (fl : InstrFlags) : FlagsLe fl { fl with scanned := true } :=
  ⟨id, fun _ => rfl, id, id⟩

theorem flagsLe_setFuncJump (c : Bool) (fl : InstrFlags) :
    FlagsLe fl (if c then { fl with func := true } else { fl with jump := true }) := by
  cases c
  · exact ⟨id, id, id, fun _ => rfl⟩
  · exact ⟨id, id, fun _ => rfl, id⟩

theorem mapsLe_markScanned (si : Nat) (m : Nat → Nat → InstrFlags) (lo c : Nat) :
    MapsLe m (markScannedMap si m lo c) := by
  intro i b
  rw [markScannedMap_apply]
  by_cases h : i = si ∧ lo ≤ b ∧ b < lo + c
  · rw [if_pos h]; exact flagsLe_setScanned _
  · rw [if_neg h]; exact flagsLe_refl _

theorem scanLoopWith_mono (rec : Nat → ScanState → Option ScanState)
    (decode : Nat → List Nat → Instr) (file : List Nat) (pe : Pe) (si : Nat) (sec : Sec)
    (hrec : ∀ t s s', rec t s = some s' → MapsLe s.maps s'.maps) :
    ∀ (fuel ip : Nat) (s s' : ScanState),
      scanLoopWith rec decode file pe si sec fuel ip s = some s' →
      MapsLe s.maps s'.maps := by
  intro fuel
  induction fuel with
  | zero => intro ip s s' h; exact absurd h (by rw [scanLoopWith]; exact Option.noConfusion)
  | succ fuel ih =>
    intro ip s s' h
    rw [scanLoopWith] at h
    dsimp only at h
    by_cases h1 : ip - sec.address < sec.length
    · rw [if_pos h1] at h
      by_cases h2 : (s.maps si (ip - sec.address)).scanned = true
      · rw [if_pos h2] at h
        cases h
        exact mapsLe_refl _
      · rw [if_neg h2] at h
        have hle2 : MapsLe s.maps
            (markScannedMap si
              (updMap s.maps si (ip - sec.address) fun fl => { fl with valid := true })
              (ip - sec.address)
              (min (ip - sec.address + (decode ip (window file sec (ip - sec.address))).len)
                  sec.minAlloc - (ip - sec.address))) :=
          mapsLe_trans (mapsLe_updMap _ _ _ _ flagsLe_setValid) (mapsLe_markScanned _ _ _ _)
        by_cases h3 : max (ip - sec.address)
            (min (ip - sec.address + (decode ip (window file sec (ip - sec.address))).len)
              sec.minAlloc) <
              ip + (decode ip (window file sec (ip - sec.address))).len ∧
            max (ip - sec.address)
              (min (ip - sec.address + (decode ip (window file sec (ip - sec.address))).len)
                sec.minAlloc) = sec.minAlloc
        · rw [if_pos h3] at h
          cases h
          exact hle2
        · rw [if_neg h3] at h
          obtain ⟨s4, hb, hrest⟩ := Option.bind_eq_some.mp h
          have hle4 : MapsLe s.maps s4.maps := by
            by_cases h4 : (decode ip (window file sec (ip - sec.address))).isBranch = true
            · rw [if_pos h4] at hb
              cases hts : addr2section (decode ip (window file sec (ip - sec.address))).target pe with
              | none =>
                rw [hts] at hb
                cases hb
                exact hle2
              | some p =>
                obtain ⟨ti, tsec⟩ := p
                rw [hts] at hb
                dsimp only at hb
                exact mapsLe_trans
                  (mapsLe_trans hle2 (mapsLe_updMap _ _ _ _ (flagsLe_setFuncJump _)))
                  (hrec _ _ _ hb)
            · rw [if_neg h4] at hb
              cases hb
              exact hle2
          by_cases h5 : (decode ip (window file sec (ip - sec.address))).isStop = true
          · rw [if_pos h5] at hrest
            cases hrest
            exact hle4
          · rw [if_neg h5] at hrest
            exact mapsLe_trans hle4 (ih _ _ _ hrest)
    · rw [if_neg h1] at h
      cases h
      exact mapsLe_refl _

theorem scanSegment_mono (decode : Nat → List Nat → Instr) (file : List Nat) (pe : Pe) :
    ∀ (fuel ip : Nat) (s s' : ScanState),
      scanSegment decode file pe fuel ip s = some s' → MapsLe s.maps s'.maps := by
  intro fuel
  induction fuel with
  | zero => intro ip s s' h; exact absurd h (by rw [scanSegment]; exact Option.noConfusion)
  | succ fuel ih =>
    intro ip s s' h
    rw [scanSegment] at h
    cases haddr : addr2section ip pe with
    | none =>
      rw [haddr] at h
      cases h
      exact mapsLe_refl _
    | some p =>
      obtain ⟨si, sec⟩ := p
      rw [haddr] at h
      dsimp only at h
      have hmono := scanLoopWith_mono _ decode file pe si sec (fun t s0 s0' h0 => ih t s0 s0' h0)
        fuel ip _ s' h
      by_cases hc : (s.maps si (ip - sec.address)).scanned = true ∧
          (s.maps si (ip - sec.address)).valid = false
      · rw [if_pos hc] at hmono
        exact hmono
      · rw [if_neg hc] at hmono
        exact hmono

/-! ### The scanner's termination measure -/

/-- `min_alloc` of the section at index `i` (0 when out of range). -/
def secMin (pe : Pe) (i : Nat) : Nat :=
  match pe.sections.get? i with
  | some sec => sec.minAlloc
  | none => 0

/-- The number of in-map bytes not yet marked `SCANNED`, summed over
all sections: the measure that bounds the scanner's work. -/
def unscanned (pe : Pe) (m : Nat → Nat → InstrFlags) : Nat :=
  ∑ i in Finset.range pe.sections.length,
    ((Finset.range (secMin pe i)).filter fun b => (m i b).scanned = false).card

/-- Total number of classification-map bytes in the image. -/
def totalBytes (pe : Pe) : Nat :=
  ∑ i in Finset.range pe.sections.length, secMin pe i

theorem unscanned_le_totalBytes (pe : Pe) (m : Nat → Nat → InstrFlags) :
    unscanned pe m ≤ totalBytes pe := by
  refine Finset.sum_le_sum fun i _ => ?_
  calc ((Finset.range (secMin pe i)).filter fun b => (m i b).scanned = false).card
      ≤ (Finset.range (secMin pe i)).card := Finset.card_le_card (Finset.filter_subset _ _)
    _ = secMin pe i := Finset.card_range _

/-- The measure never grows when scanned bits only get added. -/
theorem unscanned_le_of_scanned_le (pe : Pe) (m m' : Nat → Nat → InstrFlags)
    (h : ∀ i b, (m i b).scanned = true → (m' i b).scanned = true) :
    unscanned pe m' ≤ unscanned pe m := by
  refine Finset.sum_le_sum fun i _ => Finset.card_le_card ?_
  intro b hb
  rw [Finset.mem_filter] at hb ⊢
  refine ⟨hb.1, ?_⟩
  cases hcase : (m i b).scanned with
  | false => rfl
  | true => rw [h i b hcase] at hb; exact Bool.noConfusion hb.2

theorem unscanned_le_of_mapsLe (pe : Pe) (m m' : Nat → Nat → InstrFlags)
    (h : MapsLe m m') : unscanned pe m' ≤ unscanned pe m :=
  unscanned_le_of_scanned_le pe m m' fun i b hb => (h i b).2.1 hb

/-- The measure is a function of the scanned bits alone. -/
theorem unscanned_congr (pe : Pe) (m m' : Nat → Nat → InstrFlags)
    (h : ∀ i b, (m i b).scanned = (m' i b).scanned) :
    unscanned pe m = unscanned pe m' :=
  Nat.le_antisymm
    (unscanned_le_of_scanned_le pe m' m fun i b hb => (h i b).trans hb)
    (unscanned_le_of_scanned_le pe m m' fun i b hb => (h i b).symm.trans hb)

/-- Newly marking a previously unscanned in-range byte strictly
decreases the measure. -/
theorem unscanned_lt_of_mark (pe : Pe) (m m' : Nat → Nat → InstrFlags)
    (si b0 : Nat) (hsi : si < pe.sections.length) (hb0 : b0 < secMin pe si)
    (hwas : (m si b0).scanned = false) (hnow : (m' si b0).scanned = true)
    (hmono : ∀ i b, (m i b).scanned = true → (m' i b).scanned = true) :
    unscanned pe m' + 1 ≤ unscanned pe m := by
  have hmem : si ∈ Finset.range pe.sections.length := Finset.mem_range.mpr hsi
  have hsplit :
      ∀ mm : Nat → Nat → InstrFlags,
        unscanned pe mm =
          (∑ i in (Finset.range pe.sections.length).erase si,
            ((Finset.range (secMin pe i)).filter fun b => (mm i b).scanned = false).card) +
          ((Finset.range (secMin pe si)).filter fun b => (mm si b).scanned = false).card := by
    intro mm
    exact (Finset.sum_erase_add _ _ hmem).symm
  have hrest :
      (∑ i in (Finset.range pe.sections.length).erase si,
        ((Finset.range (secMin pe i)).filter fun b => (m' i b).scanned = false).card) ≤
      ∑ i in (Finset.range pe.sections.length).erase si,
        ((Finset.range (secMin pe i)).filter fun b => (m i b).scanned = false).card := by
    refine Finset.sum_le_sum fun i _ => Finset.card_le_card ?_
    intro b hb
    rw [Finset.mem_filter] at hb ⊢
    refine ⟨hb.1, ?_⟩
    cases hcase : (m i b).scanned with
    | false => rfl
    | true => rw [hmono i b hcase] at hb; exact Bool.noConfusion hb.2
  have hb0mem : b0 ∈ (Finset.range (secMin pe si)).filter fun b => (m si b).scanned = false :=
    Finset.mem_filter.mpr ⟨Finset.mem_range.mpr hb0, hwas⟩
  have hsub :
      ((Finset.range (secMin pe si)).filter fun b => (m' si b).scanned = false) ⊆
        ((Finset.range (secMin pe si)).filter fun b => (m si b).scanned = false).erase b0 := by
    intro b hb
    rw [Finset.mem_filter] at hb
    rw [Finset.mem_erase, Finset.mem_filter]
    refine ⟨?_, hb.1, ?_⟩
    · intro hbeq
      rw [hbeq, hnow] at hb
      exact Bool.noConfusion hb.2
    · cases hcase : (m si b).scanned with
      | false => rfl
      | true => rw [hmono si b hcase] at hb; exact Bool.noConfusion hb.2
  have hcard :
      ((Finset.range (secMin pe si)).filter fun b => (m' si b).scanned = false).card + 1 ≤
        ((Finset.range (secMin pe si)).filter fun b => (m si b).scanned = false).card := by
    have h1 := Finset.card_le_card hsub
    rw [Finset.card_erase_of_mem hb0mem] at h1
    have h2 : 1 ≤ ((Finset.range (secMin pe si)).filter
        fun b => (m si b).scanned = false).card :=
      Finset.card_pos.mpr ⟨b0, hb0mem⟩
    omega
  rw [hsplit m, hsplit m']
  omega

/-! ### Fuel adequacy: the scan always terminates within linear fuel -/

theorem scanLoopWith_isSome
    (rec : Nat → ScanState → Option ScanState)
    (decode : Nat → List Nat → Instr) (file : List Nat) (pe : Pe) (si : Nat) (sec : Sec)
    (R : Nat)
    (hdec : ∀ a w, 1 ≤ (decode a w).len)
    (hrec : ∀ t s0, 3 * unscanned pe s0.maps + 3 ≤ R → (rec t s0).isSome = true)
    (hrecmono : ∀ t s0 s0', rec t s0 = some s0' → MapsLe s0.maps s0'.maps)
    (hsec : pe.sections.get? si = some sec) :
    ∀ (fuel ip : Nat) (s : ScanState),
      sec.address ≤ ip → ip ≤ sec.address + sec.minAlloc →
      3 * unscanned pe s.maps + 2 ≤ fuel → 3 * unscanned pe s.maps + 2 ≤ R →
      (scanLoopWith rec decode file pe si sec fuel ip s).isSome = true := by
  have hsi : si < pe.sections.length := by
    cases hlt : Nat.decLt si pe.sections.length with
    | isTrue h => exact h
    | isFalse h =>
      exact absurd hsec (by rw [List.get?_eq_none.mpr (by omega)]; exact Option.noConfusion)
  have hsm : secMin pe si = sec.minAlloc := by unfold secMin; rw [hsec]
  intro fuel
  induction fuel with
  | zero => intro ip s _ _ hfuel _; exact absurd hfuel (by omega)
  | succ fuel ih =>
    intro ip s hip hle hfuel hR
    rw [scanLoopWith]
    dsimp only
    by_cases h1 : ip - sec.address < sec.length
    · rw [if_pos h1]
      by_cases h2 : (s.maps si (ip - sec.address)).scanned = true
      · rw [if_pos h2]; rfl
      · rw [if_neg h2]
        generalize hn : decode ip (window file sec (ip - sec.address)) = n
        have hlen : 1 ≤ n.len := by rw [← hn]; exact hdec ip _
        by_cases hbrk :
            max (ip - sec.address) (min (ip - sec.address + n.len) sec.minAlloc) <
                ip + n.len ∧
              max (ip - sec.address) (min (ip - sec.address + n.len) sec.minAlloc) =
                sec.minAlloc
        · rw [if_pos hbrk]; rfl
        · rw [if_neg hbrk]
          have hstrict : ip - sec.address < sec.minAlloc := by
            by_contra hge
            exact hbrk ⟨by omega, by omega⟩
          have hwas : (s.maps si (ip - sec.address)).scanned = false := by
            cases hcase : (s.maps si (ip - sec.address)).scanned with
            | false => rfl
            | true => exact absurd hcase h2
          have hmark_mono : MapsLe s.maps
              (markScannedMap si
                (updMap s.maps si (ip - sec.address) fun fl => { fl with valid := true })
                (ip - sec.address)
                (min (ip - sec.address + n.len) sec.minAlloc - (ip - sec.address))) :=
            mapsLe_trans (mapsLe_updMap _ _ _ _ flagsLe_setValid) (mapsLe_markScanned _ _ _ _)
          have hnow : ((markScannedMap si
              (updMap s.maps si (ip - sec.address) fun fl => { fl with valid := true })
              (ip - sec.address)
              (min (ip - sec.address + n.len) sec.minAlloc - (ip - sec.address)))
                si (ip - sec.address)).scanned = true := by
            rw [markScannedMap_apply, if_pos ⟨rfl, Nat.le_refl _, by omega⟩]
          have hdrop : unscanned pe
              (markScannedMap si
                (updMap s.maps si (ip - sec.address) fun fl => { fl with valid := true })
                (ip - sec.address)
                (min (ip - sec.address + n.len) sec.minAlloc - (ip - sec.address))) + 1 ≤
              unscanned pe s.maps :=
            unscanned_lt_of_mark pe s.maps _ si (ip - sec.address) hsi (by omega) hwas hnow
              (fun i b hb => (hmark_mono i b).2.1 hb)
          have hub : ip + n.len ≤ sec.address + sec.minAlloc := by
            by_contra hgt
            exact hbrk ⟨by omega, by omega⟩
          have hcont : ∀ s4 : ScanState,
              MapsLe s.maps s4.maps →
              unscanned pe s4.maps + 1 ≤ unscanned pe s.maps →
              ((some s4).bind fun s5 =>
                if n.isStop = true then some s5
                else scanLoopWith rec decode file pe si sec fuel (ip + n.len) s5).isSome =
                true := by
            intro s4 _ hU4
            rw [Option.some_bind]
            by_cases hstop : n.isStop = true
            · rw [if_pos hstop]; rfl
            · rw [if_neg hstop]
              exact ih (ip + n.len) s4 (by omega) hub (by omega) (by omega)
          by_cases hbr : n.isBranch = true
          · rw [if_pos hbr]
            cases hts : addr2section n.target pe with
            | none =>
              dsimp only
              exact hcont _ hmark_mono hdrop
            | some p =>
              obtain ⟨ti, tsec⟩ := p
              dsimp only
              have hU3 : unscanned pe
                  (updMap
                    (markScannedMap si
                      (updMap s.maps si (ip - sec.address) fun fl => { fl with valid := true })
                      (ip - sec.address)
                      (min (ip - sec.address + n.len) sec.minAlloc - (ip - sec.address)))
                    ti (n.target - tsec.address) fun fl =>
                      if n.isCall then { fl with func := true } else { fl with jump := true }) =
                  unscanned pe
                    (markScannedMap si
                      (updMap s.maps si (ip - sec.address) fun fl => { fl with valid := true })
                      (ip - sec.address)
                      (min (ip - sec.address + n.len) sec.minAlloc - (ip - sec.address))) := by
                refine (unscanned_congr pe _ _ fun i b => ?_).symm
                rw [updMap_apply]
                by_cases hcond : i = ti ∧ b = n.target - tsec.address
                · rw [if_pos hcond]
                  cases n.isCall <;> rfl
                · rw [if_neg hcond]
              have hsome := hrec n.target
                ⟨updMap
                  (markScannedMap si
                    (updMap s.maps si (ip - sec.address) fun fl => { fl with valid := true })
                    (ip - sec.address)
                    (min (ip - sec.address + n.len) sec.minAlloc - (ip - sec.address)))
                  ti (n.target - tsec.address) fun fl =>
                    if n.isCall then { fl with func := true } else { fl with jump := true },
                 s.warnings⟩
                (by dsimp only; omega)
              obtain ⟨s4, hb⟩ := Option.isSome_iff_exists.mp hsome
              rw [hb]
              have hmono4 := hrecmono _ _ _ hb
              refine hcont s4 ?_ ?_
              · exact mapsLe_trans
                  (mapsLe_trans hmark_mono (mapsLe_updMap _ _ _ _ (flagsLe_setFuncJump _)))
                  hmono4
              · have := unscanned_le_of_mapsLe pe _ _ hmono4
                dsimp only at this
                omega
          · rw [if_neg hbr]
            exact hcont _ hmark_mono hdrop
    · rw [if_neg h1]; rfl

theorem scanSegment_isSome (decode : Nat → List Nat → Instr) (file : List Nat) (pe : Pe)
    (hdec : ∀ a w, 1 ≤ (decode a w).len) :
    ∀ (fuel ip : Nat) (s : ScanState),
      3 * unscanned pe s.maps + 3 ≤ fuel →
      (scanSegment decode file pe fuel ip s).isSome = true := by
  intro fuel
  induction fuel with
  | zero => intro ip s hfuel; exact absurd hfuel (by omega)
  | succ fuel ih =>
    intro ip s hfuel
    rw [scanSegment]
    cases haddr : addr2section ip pe with
    | none => rfl
    | some p =>
      obtain ⟨si, sec⟩ := p
      dsimp only
      obtain ⟨hget, hlo, hhi⟩ := addr2section_spec ip pe si sec haddr
      have hmaps1 : ∀ s1 : ScanState, s1.maps = s.maps →
          (scanLoopWith (fun t s' => scanSegment decode file pe fuel t s')
            decode file pe si sec fuel ip s1).isSome = true := by
        intro s1 hm
        exact scanLoopWith_isSome _ decode file pe si sec fuel hdec
          (fun t s0 h0 => ih t s0 h0)
          (fun t s0 s0' h0 => scanSegment_mono decode file pe fuel t s0 s0' h0)
          hget fuel ip s1 hlo (by omega) (by rw [hm]; omega) (by rw [hm]; omega)
      by_cases hc : (s.maps si (ip - sec.address)).scanned = true ∧
          (s.maps si (ip - sec.address)).valid = false
      · rw [if_pos hc]
        exact hmaps1 _ rfl
      · rw [if_neg hc]
        exact hmaps1 _ rfl

theorem scanEntries_mono (decode : Nat → List Nat → Instr) (file : List Nat) (pe : Pe)
    (fuel : Nat) : ∀ (es : List Nat) (s s' : ScanState),
    scanEntries decode file pe fuel es s = some s' → MapsLe s.maps s'.maps := by
  intro es
  induction es with
  | nil => intro s s' h; cases h; exact mapsLe_refl _
  | cons e es ih =>
    intro s s' h
    rw [scanEntries] at h
    obtain ⟨s1, h1, h2⟩ := Option.bind_eq_some.mp h
    exact mapsLe_trans (scanSegment_mono _ _ _ _ _ _ _ h1) (ih _ _ h2)

theorem scanSeq_mono (decode : Nat → List Nat → Instr) (file : List Nat) (pe : Pe) :
    ∀ (cs : List (Nat × Nat)) (s s' : ScanState),
    scanSeq decode file pe cs s = some s' → MapsLe s.maps s'.maps := by
  intro cs
  induction cs with
  | nil => intro s s' h; cases h; exact mapsLe_refl _
  | cons c cs ih =>
    intro s s' h
    obtain ⟨fuel, e⟩ := c
    rw [scanSeq] at h
    obtain ⟨s1, h1, h2⟩ := Option.bind_eq_some.mp h
    exact mapsLe_trans (scanSegment_mono _ _ _ _ _ _ _ h1) (ih _ _ h2)

/-! ### Scenario images -/

/-- Self-loop scenario image: one code section `[0x1000, 0x1040)`, no
exports, entry point `0x1000`. -/
def secSelf : Sec := ⟨0x1000, 0, 0x40, 0x40, 0x20⟩

def peSelf : Pe := ⟨[secSelf], [], [], 0x400000, 0x1000, 0⟩

/-- Decoder for the self-loop scenario: at `0x1000` a two-byte
unconditional jump to `0x1000` itself (`OP_BRANCH|OP_STOP`), filler
elsewhere. -/
def decodeSelf : Nat → List Nat → Instr := fun ip _ =>
  if ip = 0x1000 then ⟨2, true, false, true, 0x1000⟩ else ⟨1, false, false, false, 0⟩

def fileSelf : List Nat := List.replicate 0x40 0

/-- Claim C1: for every image, decoder (producing instruction lengths
of at least one byte, as `get_instr` does), file and entry address,
`scan_segment` completes within a number of steps linear in the total
number of classification-map bytes — fuel `3 * totalBytes + 3` always
suffices, so cyclic control flow cannot make it loop forever.  In the
self-loop scenario (a two-byte unconditional jump at `0x1000` to
itself) the run needs only a handful of steps, marks the entry byte
`VALID`+`SCANNED`+`JUMP`, and emits no warning at all — in particular
no "scan reached the end of section" warning. -/
theorem scanSegment_terminates :
    (∀ (decode : Nat → List Nat → Instr) (file : List Nat) (pe : Pe) (ip : Nat)
        (s : ScanState),
        (∀ a w, 1 ≤ (decode a w).len) →
        (scanSegment decode file pe (3 * totalBytes pe + 3) ip s).isSome = true) ∧
    (scanSegment decodeSelf fileSelf peSelf 8 0x1000 emptyScanState).map
        (fun s => (s.maps 0 0, s.warnings)) =
      some (⟨true, true, false, true⟩, []) := by
  constructor
  · intro decode file pe ip s hdec
    exact scanSegment_isSome decode file pe hdec _ ip s
      (by have := unscanned_le_totalBytes pe s.maps; omega)
  · decide

/-- Witness for `scanSegment_terminates`: the decoder hypothesis holds
for the self-loop decoder, and the general bound applied to the
self-loop image yields a successful scan. -/
theorem scanSegment_terminates_witness :
    (∀ a w, 1 ≤ (decodeSelf a w).len) ∧
      (scanSegment decodeSelf fileSelf peSelf (3 * totalBytes peSelf + 3) 0x1000
        emptyScanState).isSome = true := by
  have hdec : ∀ a w, 1 ≤ (decodeSelf a w).len := by
    intro a w
    unfold decodeSelf
    by_cases h : a = 0x1000
    · rw [if_pos h]; exact Nat.le_of_lt Nat.one_lt_two
    · rw [if_neg h]
  exact ⟨hdec, scanSegment_terminates.1 decodeSelf fileSelf peSelf 0x1000 emptyScanState hdec⟩

/-- Claim C9: over any sequence of `scan_segment` invocations, every
classification bit only grows — each write ORs `INSTR_VALID`,
`INSTR_SCANNED`, `INSTR_FUNC` or `INSTR_JUMP` into a byte and nothing
ever clears a bit (`print_disassembly` takes the section read-only and
is embedded as a pure function of the map, `printDisassembly`). -/
theorem scan_only_sets_bits (decode : Nat → List Nat → Instr) (file : List Nat)
    (pe : Pe) (cs : List (Nat × Nat)) (s s' : ScanState)
    (h : scanSeq decode file pe cs s = some s') : MapsLe s.maps s'.maps :=
  scanSeq_mono decode file pe cs s s' h

/-- Witness for `scan_only_sets_bits` at the self-loop scenario. -/
theorem scan_only_sets_bits_witness :
    scanSeq decodeSelf fileSelf peSelf [(8, 0x1000)] emptyScanState =
      some ((scanSeq decodeSelf fileSelf peSelf [(8, 0x1000)] emptyScanState).getD
        emptyScanState) ∧
    MapsLe emptyScanState.maps
      ((scanSeq decodeSelf fileSelf peSelf [(8, 0x1000)] emptyScanState).getD
        emptyScanState).maps :=
  ⟨rfl, scan_only_sets_bits decodeSelf fileSelf peSelf [(8, 0x1000)] emptyScanState _ rfl⟩

/-- Claim C10: calling `scan_segment` at an address whose byte is
`SCANNED` but not `VALID` (re-entry into the middle of a previously
decoded instruction) emits the "does not begin instruction" warning
and returns without writing any classification map. -/
theorem scanSegment_midInstruction (decode : Nat → List Nat → Instr) (file : List Nat)
    (pe : Pe) (fuel ip : Nat) (s : ScanState) (si : Nat) (sec : Sec)
    (haddr : addr2section ip pe = some (si, sec))
    (hsc : (s.maps si (ip - sec.address)).scanned = true)
    (hnv : (s.maps si (ip - sec.address)).valid = false)
    (hfuel : 2 ≤ fuel) :
    ∃ s', scanSegment decode file pe fuel ip s = some s' ∧
      s'.maps = s.maps ∧ Warning.midInstruction ip ∈ s'.warnings := by
  obtain ⟨f, rfl⟩ : ∃ f, fuel = f + 1 + 1 := ⟨fuel - 2, by omega⟩
  rw [scanSegment, haddr]
  dsimp only
  rw [if_pos ⟨hsc, hnv⟩]
  rw [scanLoopWith]
  dsimp only
  by_cases h1 : ip - sec.address < sec.length
  · rw [if_pos h1,
      if_pos (show ((pushWarn s (Warning.midInstruction ip)).maps si
        (ip - sec.address)).scanned = true from hsc)]
    exact ⟨_, rfl, rfl, by simp [pushWarn]⟩
  · rw [if_neg h1]
    exact ⟨_, rfl, rfl, by simp [pushWarn]⟩

/-- State used as the C10 witness: byte 1 of the self-loop section is
already `SCANNED` but not `VALID` (tail of the two-byte jump). -/
def sC10 : ScanState :=
  ⟨fun i b => if i = 0 ∧ b = 1 then ⟨false, true, false, false⟩ else InstrFlags.empty, []⟩

/-- Witness for `scanSegment_midInstruction`: re-entering the middle
of the self-loop jump at `0x1001`. -/
theorem scanSegment_midInstruction_witness :
    addr2section 0x1001 peSelf = some (0, secSelf) ∧
      (sC10.maps 0 (0x1001 - secSelf.address)).scanned = true ∧
      (sC10.maps 0 (0x1001 - secSelf.address)).valid = false ∧
      ∃ s', scanSegment decodeSelf fileSelf peSelf 2 0x1001 sC10 = some s' ∧
        s'.maps = sC10.maps ∧ Warning.midInstruction 0x1001 ∈ s'.warnings :=
  ⟨rfl, rfl, rfl,
    scanSegment_midInstruction decodeSelf fileSelf peSelf 2 0x1001 sC10 0 secSelf
      rfl rfl rfl (by decide)⟩

/-! ### The VALID-implies-SCANNED invariant -/

/-- Within every section's map, a `VALID` byte is also `SCANNED`. -/
def ValidImpScanned (pe : Pe) (m : Nat → Nat → InstrFlags) : Prop :=
  ∀ si b, si < pe.sections.length → b < secMin pe si →
    (m si b).valid = true → (m si b).scanned = true

theorem validImpScanned_empty (pe : Pe) : ValidImpScanned pe emptyScanState.maps := by
  intro si b _ _ hv
  exact Bool.noConfusion hv

/-- One decode step (set `VALID` at `relip`, mark `SCANNED` over the
clipped span) preserves the invariant, because the span always covers
`relip` itself when `relip` is inside the map. -/
theorem validImpScanned_mark (pe : Pe) (m : Nat → Nat → InstrFlags) (si : Nat) (sec : Sec)
    (hsec : pe.sections.get? si = some sec) (relip len' : Nat) (hlen : 1 ≤ len')
    (hinv : ValidImpScanned pe m) :
    ValidImpScanned pe
      (markScannedMap si (updMap m si relip fun fl => { fl with valid := true })
        relip (min (relip + len') sec.minAlloc - relip)) := by
  have hsm : secMin pe si = sec.minAlloc := by unfold secMin; rw [hsec]
  intro i b hi hb hv
  rw [markScannedMap_apply] at hv ⊢
  by_cases hin : i = si ∧ relip ≤ b ∧ b < relip + (min (relip + len') sec.minAlloc - relip)
  · rw [if_pos hin]
  · rw [if_neg hin] at hv ⊢
    rw [updMap_apply] at hv ⊢
    by_cases hup : i = si ∧ b = relip
    · exfalso
      apply hin
      have hb' : b < sec.minAlloc := by
        rw [hup.1] at hb
        rw [hsm] at hb
        exact hb
      have hb2 : b = relip := hup.2
      exact ⟨hup.1, by omega, by omega⟩
    · rw [if_neg hup] at hv
      rw [if_neg hup]
      exact hinv i b hi hb hv

/-- Setting `FUNC`/`JUMP` at a branch target preserves the invariant
(those writes touch neither `VALID` nor `SCANNED`). -/
theorem validImpScanned_updFuncJump (pe : Pe) (m : Nat → Nat → InstrFlags)
    (ti b0 : Nat) (c : Bool) (hinv : ValidImpScanned pe m) :
    ValidImpScanned pe (updMap m ti b0 fun fl =>
      if c then { fl with func := true } else { fl with jump := true }) := by
  intro i b hi hb hv
  rw [updMap_apply] at hv ⊢
  by_cases hcond : i = ti ∧ b = b0
  · rw [if_pos hcond] at hv ⊢
    cases c with
    | false => exact hinv i b hi hb hv
    | true => exact hinv i b hi hb hv
  · rw [if_neg hcond] at hv ⊢
    exact hinv i b hi hb hv

theorem scanLoopWith_validImpScanned
    (rec : Nat → ScanState → Option ScanState)
    (decode : Nat → List Nat → Instr) (file : List Nat) (pe : Pe) (si : Nat) (sec : Sec)
    (hdec : ∀ a w, 1 ≤ (decode a w).len)
    (hrec : ∀ t s0 s0', rec t s0 = some s0' →
      ValidImpScanned pe s0.maps → ValidImpScanned pe s0'.maps)
    (hsec : pe.sections.get? si = some sec) :
    ∀ (fuel ip : Nat) (s s' : ScanState),
      sec.address ≤ ip → ip ≤ sec.address + sec.minAlloc →
      scanLoopWith rec decode file pe si sec fuel ip s = some s' →
      ValidImpScanned pe s.maps → ValidImpScanned pe s'.maps := by
  intro fuel
  induction fuel with
  | zero =>
    intro ip s s' _ _ h _
    exact absurd h (by rw [scanLoopWith]; exact Option.noConfusion)
  | succ fuel ih =>
    intro ip s s' hip hle h hinv
    rw [scanLoopWith] at h
    dsimp only at h
    by_cases h1 : ip - sec.address < sec.length
    · rw [if_pos h1] at h
      by_cases h2 : (s.maps si (ip - sec.address)).scanned = true
      · rw [if_pos h2] at h
        cases h
        exact hinv
      · rw [if_neg h2] at h
        generalize hn : decode ip (window file sec (ip - sec.address)) = n at h
        have hlen : 1 ≤ n.len := by rw [← hn]; exact hdec ip _
        have hinv2 : ValidImpScanned pe
            (markScannedMap si
              (updMap s.maps si (ip - sec.address) fun fl => { fl with valid := true })
              (ip - sec.address)
              (min (ip - sec.address + n.len) sec.minAlloc - (ip - sec.address))) :=
          validImpScanned_mark pe s.maps si sec hsec (ip - sec.address) n.len hlen hinv
        by_cases hbrk :
            max (ip - sec.address) (min (ip - sec.address + n.len) sec.minAlloc) <
                ip + n.len ∧
              max (ip - sec.address) (min (ip - sec.address + n.len) sec.minAlloc) =
                sec.minAlloc
        · rw [if_pos hbrk] at h
          cases h
          exact hinv2
        · rw [if_neg hbrk] at h
          obtain ⟨s4, hb, hrest⟩ := Option.bind_eq_some.mp h
          have hub : ip + n.len ≤ sec.address + sec.minAlloc := by
            have hstrict : ip - sec.address < sec.minAlloc := by
              by_contra hge
              exact hbrk ⟨by omega, by omega⟩
            by_contra hgt
            exact hbrk ⟨by omega, by omega⟩
          have hinv4 : ValidImpScanned pe s4.maps := by
            by_cases h4 : n.isBranch = true
            · rw [if_pos h4] at hb
              cases hts : addr2section n.target pe with
              | none =>
                rw [hts] at hb
                cases hb
                exact hinv2
              | some p =>
                obtain ⟨ti, tsec⟩ := p
                rw [hts] at hb
                dsimp only at hb
                exact hrec _ _ _ hb
                  (validImpScanned_updFuncJump pe _ ti (n.target - tsec.address) n.isCall hinv2)
            · rw [if_neg h4] at hb
              cases hb
              exact hinv2
          by_cases h5 : n.isStop = true
          · rw [if_pos h5] at hrest
            cases hrest
            exact hinv4
          · rw [if_neg h5] at hrest
            exact ih (ip + n.len) s4 s' (by omega) hub hrest hinv4
    · rw [if_neg h1] at h
      cases h
      exact hinv

theorem scanSegment_validImpScanned (decode : Nat → List Nat → Instr) (file : List Nat)
    (pe : Pe) (hdec : ∀ a w, 1 ≤ (decode a w).len) :
    ∀ (fuel ip : Nat) (s s' : ScanState),
      scanSegment decode file pe fuel ip s = some s' →
      ValidImpScanned pe s.maps → ValidImpScanned pe s'.maps := by
  intro fuel
  induction fuel with
  | zero =>
    intro ip s s' h _
    exact absurd h (by rw [scanSegment]; exact Option.noConfusion)
  | succ fuel ih =>
    intro ip s s' h hinv
    rw [scanSegment] at h
    cases haddr : addr2section ip pe with
    | none =>
      rw [haddr] at h
      cases h
      exact hinv
    | some p =>
      obtain ⟨si, sec⟩ := p
      rw [haddr] at h
      dsimp only at h
      obtain ⟨hget, hlo, hhi⟩ := addr2section_spec ip pe si sec haddr
      have hloop := scanLoopWith_validImpScanned _ decode file pe si sec hdec
        (fun t s0 s0' h0 hi0 => ih t s0 s0' h0 hi0) hget fuel ip _ s' hlo (by omega) h
      by_cases hc : (s.maps si (ip - sec.address)).scanned = true ∧
          (s.maps si (ip - sec.address)).valid = false
      · rw [if_pos hc] at hloop
        exact hloop hinv
      · rw [if_neg hc] at hloop
        exact hloop hinv

/-- Claim C6: in every classification-map state reachable by a
sequence of `scan_segment` calls from the all-empty map, a `VALID`
byte is also `SCANNED`; and a byte can be `SCANNED` without `VALID` —
after the self-loop scan, byte 1 (the tail of the two-byte jump) is
exactly that. -/
theorem valid_implies_scanned :
    (∀ (decode : Nat → List Nat → Instr) (file : List Nat) (pe : Pe)
        (cs : List (Nat × Nat)) (s' : ScanState),
        (∀ a w, 1 ≤ (decode a w).len) →
        scanSeq decode file pe cs emptyScanState = some s' →
        ValidImpScanned pe s'.maps) ∧
    (scanSegment decodeSelf fileSelf peSelf 8 0x1000 emptyScanState).map
        (fun s => s.maps 0 1) = some ⟨false, true, false, false⟩ := by
  constructor
  · intro decode file pe cs s' hdec h
    have hseq : ∀ (cs : List (Nat × Nat)) (s0 s1 : ScanState),
        scanSeq decode file pe cs s0 = some s1 →
        ValidImpScanned pe s0.maps → ValidImpScanned pe s1.maps := by
      intro cs
      induction cs with
      | nil => intro s0 s1 h0 hi; cases h0; exact hi
      | cons c cs ih =>
        intro s0 s1 h0 hi
        obtain ⟨fuel, e⟩ := c
        rw [scanSeq] at h0
        obtain ⟨sm, hm1, hm2⟩ := Option.bind_eq_some.mp h0
        exact ih sm s1 hm2 (scanSegment_validImpScanned decode file pe hdec fuel e s0 sm hm1 hi)
    exact hseq cs emptyScanState s' h (validImpScanned_empty pe)
  · decide

/-- Witness for `valid_implies_scanned`: the invariant instantiated at
the self-loop run, checked at the entry byte. -/
theorem valid_implies_scanned_witness :
    (∀ a w, 1 ≤ (decodeSelf a w).len) ∧
      scanSeq decodeSelf fileSelf peSelf [(8, 0x1000)] emptyScanState =
        some ((scanSeq decodeSelf fileSelf peSelf [(8, 0x1000)] emptyScanState).getD
          emptyScanState) ∧
      ValidImpScanned peSelf
        ((scanSeq decodeSelf fileSelf peSelf [(8, 0x1000)] emptyScanState).getD
          emptyScanState).maps := by
  have hdec : ∀ a w, 1 ≤ (decodeSelf a w).len := by
    intro a w
    unfold decodeSelf
    by_cases h : a = 0x1000
    · rw [if_pos h]; exact Nat.le_of_lt Nat.one_lt_two
    · rw [if_neg h]
  exact ⟨hdec, rfl,
    valid_implies_scanned.1 decodeSelf fileSelf peSelf [(8, 0x1000)] _ hdec rfl⟩

/-! ### Idempotence of the scan pass -/

/-- What a completed `scan_segment` call guarantees at its entry
address: the address is unmapped, or its relative offset is at/past
`length` (so the loop body never ran), or the entry byte is
`SCANNED`. -/
def entryDone (pe : Pe) (m : Nat → Nat → InstrFlags) (e : Nat) : Prop :=
  match addr2section e pe with
  | none => True
  | some (si, sec) => sec.length ≤ e - sec.address ∨ (m si (e - sec.address)).scanned = true

theorem entryDone_mono (pe : Pe) (m m' : Nat → Nat → InstrFlags) (e : Nat)
    (hle : MapsLe m m') (hd : entryDone pe m e) : entryDone pe m' e := by
  revert hd
  unfold entryDone
  cases haddr : addr2section e pe with
  | none => intro _; trivial
  | some p =>
    obtain ⟨si, sec⟩ := p
    intro hd
    dsimp only at hd ⊢
    cases hd with
    | inl h => exact Or.inl h
    | inr h => exact Or.inr ((hle si (e - sec.address)).2.1 h)

/-- After a successful loop run whose entry offset is strictly inside
`min_alloc`, the entry byte is at/past `length` or `SCANNED`. -/
theorem scanLoopWith_covers
    (rec : Nat → ScanState → Option ScanState)
    (decode : Nat → List Nat → Instr) (file : List Nat) (pe : Pe) (si : Nat) (sec : Sec)
    (hdec : ∀ a w, 1 ≤ (decode a w).len)
    (hrecmono : ∀ t s0 s0', rec t s0 = some s0' → MapsLe s0.maps s0'.maps)
    (fuel ip : Nat) (s s' : ScanState)
    (hrel : ip - sec.address < sec.minAlloc)
    (h : scanLoopWith rec decode file pe si sec fuel ip s = some s') :
    sec.length ≤ ip - sec.address ∨ (s'.maps si (ip - sec.address)).scanned = true := by
  cases fuel with
  | zero => exact absurd h (by rw [scanLoopWith]; exact Option.noConfusion)
  | succ fuel =>
    rw [scanLoopWith] at h
    dsimp only at h
    by_cases h1 : ip - sec.address < sec.length
    · rw [if_pos h1] at h
      by_cases h2 : (s.maps si (ip - sec.address)).scanned = true
      · rw [if_pos h2] at h
        cases h
        exact Or.inr h2
      · rw [if_neg h2] at h
        generalize hn : decode ip (window file sec (ip - sec.address)) = n at h
        have hlen : 1 ≤ n.len := by rw [← hn]; exact hdec ip _
        have hnow : ((markScannedMap si
            (updMap s.maps si (ip - sec.address) fun fl => { fl with valid := true })
            (ip - sec.address)
            (min (ip - sec.address + n.len) sec.minAlloc - (ip - sec.address)))
              si (ip - sec.address)).scanned = true := by
          rw [markScannedMap_apply, if_pos ⟨rfl, Nat.le_refl _, by omega⟩]
        by_cases hbrk :
            max (ip - sec.address) (min (ip - sec.address + n.len) sec.minAlloc) <
                ip + n.len ∧
              max (ip - sec.address) (min (ip - sec.address + n.len) sec.minAlloc) =
                sec.minAlloc
        · rw [if_pos hbrk] at h
          cases h
          exact Or.inr hnow
        · rw [if_neg hbrk] at h
          obtain ⟨s4, hb, hrest⟩ := Option.bind_eq_some.mp h
          have hs4 : (s4.maps si (ip - sec.address)).scanned = true := by
            by_cases h4 : n.isBranch = true
            · rw [if_pos h4] at hb
              cases hts : addr2section n.target pe with
              | none =>
                rw [hts] at hb
                cases hb
                exact hnow
              | some p =>
                obtain ⟨ti, tsec⟩ := p
                rw [hts] at hb
                dsimp only at hb
                refine (hrecmono _ _ _ hb si (ip - sec.address)).2.1 ?_
                dsimp only
                rw [updMap_apply]
                by_cases hcond : si = ti ∧ ip - sec.address = n.target - tsec.address
                · rw [if_pos hcond]
                  cases n.isCall <;> exact hnow
                · rw [if_neg hcond]
                  exact hnow
            · rw [if_neg h4] at hb
              cases hb
              exact hnow
          by_cases h5 : n.isStop = true
          · rw [if_pos h5] at hrest
            cases hrest
            exact Or.inr hs4
          · rw [if_neg h5] at hrest
            exact Or.inr
              ((scanLoopWith_mono rec decode file pe si sec hrecmono fuel _ _ _ hrest
                si (ip - sec.address)).2.1 hs4)
    · rw [if_neg h1] at h
      exact Or.inl (by omega)

/-- A successful `scan_segment` call leaves its own entry address
done. -/
theorem scanSegment_entryDone (decode : Nat → List Nat → Instr) (file : List Nat)
    (pe : Pe) (hdec : ∀ a w, 1 ≤ (decode a w).len)
    (fuel e : Nat) (s s' : ScanState)
    (h : scanSegment decode file pe fuel e s = some s') :
    entryDone pe s'.maps e := by
  cases fuel with
  | zero => exact absurd h (by rw [scanSegment]; exact Option.noConfusion)
  | succ fuel =>
    rw [scanSegment] at h
    unfold entryDone
    cases haddr : addr2section e pe with
    | none => trivial
    | some p =>
      obtain ⟨si, sec⟩ := p
      rw [haddr] at h
      dsimp only at h
      dsimp only
      obtain ⟨hget, hlo, hhi⟩ := addr2section_spec e pe si sec haddr
      exact scanLoopWith_covers _ decode file pe si sec hdec
        (fun t s0 s0' h0 => scanSegment_mono decode file pe fuel t s0 s0' h0)
        fuel e _ s' (by omega) h

/-- Scanning a done entry writes no classification map. -/
theorem scanSegment_noop_of_done (decode : Nat → List Nat → Instr) (file : List Nat)
    (pe : Pe) (fuel e : Nat) (s : ScanState)
    (hd : entryDone pe s.maps e) (hfuel : 2 ≤ fuel) :
    ∃ s', scanSegment decode file pe fuel e s = some s' ∧ s'.maps = s.maps := by
  obtain ⟨f, rfl⟩ : ∃ f, fuel = f + 1 + 1 := ⟨fuel - 2, by omega⟩
  rw [scanSegment]
  revert hd
  unfold entryDone
  cases haddr : addr2section e pe with
  | none =>
    intro _
    exact ⟨_, rfl, rfl⟩
  | some p =>
    obtain ⟨si, sec⟩ := p
    intro hd
    dsimp only at hd ⊢
    have hloop : ∀ s1 : ScanState, s1.maps = s.maps →
        ∃ s', scanLoopWith (fun t s2 => scanSegment decode file pe (f + 1) t s2)
            decode file pe si sec (f + 1) e s1 = some s' ∧ s'.maps = s.maps := by
      intro s1 hm
      rw [scanLoopWith]
      dsimp only
      cases hd with
      | inl hlen =>
        rw [if_neg (by omega : ¬ e - sec.address < sec.length)]
        exact ⟨_, rfl, by rw [pushWarn_maps, hm]⟩
      | inr hsc =>
        by_cases h1 : e - sec.address < sec.length
        · rw [if_pos h1,
            if_pos (show (s1.maps si (e - sec.address)).scanned = true by
              rw [hm]; exact hsc)]
          exact ⟨s1, rfl, hm⟩
        · rw [if_neg h1]
          exact ⟨_, rfl, by rw [pushWarn_maps, hm]⟩
    by_cases hc : (s.maps si (e - sec.address)).scanned = true ∧
        (s.maps si (e - sec.address)).valid = false
    · rw [if_pos hc]
      exact hloop _ rfl
    · rw [if_neg hc]
      exact hloop _ rfl

/-- After a successful `scanEntries` run, every scanned entry is
done. -/
theorem scanEntries_done (decode : Nat → List Nat → Instr) (file : List Nat)
    (pe : Pe) (fuel : Nat) (hdec : ∀ a w, 1 ≤ (decode a w).len) :
    ∀ (es : List Nat) (s s' : ScanState),
      scanEntries decode file pe fuel es s = some s' →
      ∀ e ∈ es, entryDone pe s'.maps e := by
  intro es
  induction es with
  | nil => intro s s' _ e he; exact absurd he (List.not_mem_nil e)
  | cons e0 es ih =>
    intro s s' h e he
    rw [scanEntries] at h
    obtain ⟨s1, h1, h2⟩ := Option.bind_eq_some.mp h
    cases List.mem_cons.mp he with
    | inl heq =>
      subst heq
      exact entryDone_mono pe s1.maps s'.maps e (scanEntries_mono decode file pe fuel es s1 s' h2)
        (scanSegment_entryDone decode file pe hdec fuel e s s1 h1)
    | inr hmem => exact ih s1 s' h2 e hmem

/-- Re-scanning a list of done entries succeeds and writes nothing. -/
theorem scanEntries_noop_of_done (decode : Nat → List Nat → Instr) (file : List Nat)
    (pe : Pe) (fuel : Nat) (hfuel : 2 ≤ fuel) :
    ∀ (es : List Nat) (s : ScanState),
      (∀ e ∈ es, entryDone pe s.maps e) →
      ∃ s', scanEntries decode file pe fuel es s = some s' ∧ s'.maps = s.maps := by
  intro es
  induction es with
  | nil => intro s _; exact ⟨s, rfl, rfl⟩
  | cons e0 es ih =>
    intro s hd
    obtain ⟨s1, h1, hm1⟩ := scanSegment_noop_of_done decode file pe fuel e0 s
      (hd e0 (List.mem_cons_self e0 es)) hfuel
    obtain ⟨s2, h2, hm2⟩ := ih s1 (fun e he => by
      rw [show entryDone pe s1.maps e = entryDone pe s.maps e by rw [hm1]]
      exact hd e (List.mem_cons_of_mem e0 he))
    refine ⟨s2, ?_, by rw [hm2, hm1]⟩
    rw [scanEntries, h1, Option.some_bind, h2]

/-- Claim C3: running the scan pass (`read_sections`: every export
address, then the entry point unless the image is flagged as having
none) a second time after a first complete run leaves every section's
classification map exactly as the first run left it — every entry's
byte is already settled, so `scan_segment` returns before writing any
flag. -/
theorem readSections_idempotent (decode : Nat → List Nat → Instr) (file : List Nat)
    (pe : Pe) (fuel : Nat) (s0 s1 : ScanState)
    (hdec : ∀ a w, 1 ≤ (decode a w).len) (hfuel : 2 ≤ fuel)
    (h1 : readSections decode file pe fuel s0 = some s1) :
    ∃ s2, readSections decode file pe fuel s1 = some s2 ∧ s2.maps = s1.maps := by
  unfold readSections at h1 ⊢
  exact scanEntries_noop_of_done decode file pe fuel hfuel (entryList pe) s1
    (scanEntries_done decode file pe fuel hdec (entryList pe) s0 s1 h1)

/-- Witness for `readSections_idempotent`: the self-loop image, whose
entry list is just the entry point `0x1000`. -/
theorem readSections_idempotent_witness :
    (∀ a w, 1 ≤ (decodeSelf a w).len) ∧ 2 ≤ 8 ∧
      readSections decodeSelf fileSelf peSelf 8 emptyScanState =
        some ((readSections decodeSelf fileSelf peSelf 8 emptyScanState).getD
          emptyScanState) ∧
      ∃ s2, readSections decodeSelf fileSelf peSelf 8
            ((readSections decodeSelf fileSelf peSelf 8 emptyScanState).getD
              emptyScanState) = some s2 ∧
          s2.maps = ((readSections decodeSelf fileSelf peSelf 8 emptyScanState).getD
            emptyScanState).maps := by
  have hdec : ∀ a w, 1 ≤ (decodeSelf a w).len := by
    intro a w
    unfold decodeSelf
    by_cases h : a = 0x1000
    · rw [if_pos h]; exact Nat.le_of_lt Nat.one_lt_two
    · rw [if_neg h]
  exact ⟨hdec, by omega, rfl,
    readSections_idempotent decodeSelf fileSelf peSelf 8 emptyScanState _ hdec
      (by omega) rfl⟩

/-! ### Zero-run and skip-loop characterizations for the renderer -/

theorem zrun_eq (file : List Nat) (p : Nat) :
    zrun file p = if file.get? p = some 0 then zrun file (p + 1) + 1 else 0 := by
  unfold zrun
  by_cases hz : file.get? p = some 0
  · have hp : p < file.length := by
      cases hlt : Nat.decLt p file.length with
      | isTrue h => exact h
      | isFalse h =>
        rw [List.get?_eq_none.mpr (by omega)] at hz
        exact absurd hz Option.noConfusion
    rw [if_pos hz, show file.length - p = (file.length - (p + 1)) + 1 by omega,
      zrunF, if_pos hz]
  · rw [if_neg hz]
    cases hf : file.length - p with
    | zero => rw [zrunF]
    | succ k => rw [zrunF, if_neg hz]

theorem zrun_zeros (file : List Nat) :
    ∀ (q p : Nat), q < zrun file p → file.get? (p + q) = some 0 := by
  intro q
  induction q with
  | zero =>
    intro p h
    rw [zrun_eq] at h
    by_cases hz : file.get? p = some 0
    · rw [Nat.add_zero]; exact hz
    · rw [if_neg hz] at h; exact absurd h (by omega)
  | succ q ih =>
    intro p h
    rw [zrun_eq] at h
    by_cases hz : file.get? p = some 0
    · rw [if_pos hz] at h
      rw [show p + (q + 1) = (p + 1) + q by omega]
      exact ih (p + 1) (by omega)
    · rw [if_neg hz] at h; exact absurd h (by omega)

theorem zrun_stop (file : List Nat) :
    ∀ (n p : Nat), zrun file p = n → file.get? (p + n) ≠ some 0 := by
  intro n
  induction n with
  | zero =>
    intro p h hc
    rw [Nat.add_zero] at hc
    rw [zrun_eq, if_pos hc] at h
    exact Nat.succ_ne_zero _ h
  | succ n ih =>
    intro p h hc
    rw [zrun_eq] at h
    by_cases hz : file.get? p = some 0
    · rw [if_pos hz] at h
      exact ih (p + 1) (by omega) (by rw [show (p + 1) + n = p + (n + 1) by omega]; exact hc)
    · rw [if_neg hz] at h
      exact absurd h (by omega)

theorem skipValidF_spec (sec : Sec) (m : Nat → Nat → InstrFlags) (si : Nat) :
    ∀ (f relip : Nat),
      relip ≤ min sec.length sec.minAlloc → f = min sec.length sec.minAlloc - relip →
      relip ≤ skipValidF sec m si f relip ∧
        (∀ q, relip ≤ q → q < skipValidF sec m si f relip → (m si q).valid = false) ∧
        ((skipValidF sec m si f relip < min sec.length sec.minAlloc ∧
            (m si (skipValidF sec m si f relip)).valid = true) ∨
          skipValidF sec m si f relip = min sec.length sec.minAlloc) := by
  intro f
  induction f with
  | zero =>
    intro relip hle hf
    rw [skipValidF]
    exact ⟨Nat.le_refl _, fun q h1 h2 => absurd (Nat.lt_of_le_of_lt h1 h2) (Nat.lt_irrefl relip),
      Or.inr (by omega)⟩
  | succ f ih =>
    intro relip hle hf
    rw [skipValidF]
    by_cases hg : relip < sec.length ∧ relip < sec.minAlloc ∧ (m si relip).valid = false
    · rw [if_pos hg]
      obtain ⟨hle', hskip', hend'⟩ := ih (relip + 1) (by omega) (by omega)
      refine ⟨by omega, ?_, hend'⟩
      intro q hq1 hq2
      by_cases hq : q = relip
      · rw [hq]; exact hg.2.2
      · exact hskip' q (by omega) hq2
    · rw [if_neg hg]
      refine ⟨Nat.le_refl _,
        fun q h1 h2 => absurd (Nat.lt_of_le_of_lt h1 h2) (Nat.lt_irrefl relip), ?_⟩
      by_cases heq : relip = min sec.length sec.minAlloc
      · exact Or.inr heq
      · refine Or.inl ⟨by omega, ?_⟩
        cases hv : (m si relip).valid with
        | true => rfl
        | false => exact absurd ⟨by omega, by omega, hv⟩ hg

/-- The default-mode skip advances to the first `VALID` byte, or to
`min(length, min_alloc)` when there is none before it, skipping only
non-`VALID` bytes. -/
theorem skipValid_spec (sec : Sec) (m : Nat → Nat → InstrFlags) (si relip : Nat)
    (hle : relip ≤ min sec.length sec.minAlloc) :
    relip ≤ skipValid sec m si relip ∧
      (∀ q, relip ≤ q → q < skipValid sec m si relip → (m si q).valid = false) ∧
      ((skipValid sec m si relip < min sec.length sec.minAlloc ∧
          (m si (skipValid sec m si relip)).valid = true) ∨
        skipValid sec m si relip = min sec.length sec.minAlloc) :=
  skipValidF_spec sec m si (min sec.length sec.minAlloc - relip) relip hle rfl

/-! ### Renderer claim theorems -/

/-- Flat section at address 0 used for the disassemble-all
counterexample. -/
def secR : Sec := ⟨0, 0, 3, 3, 0x20⟩

def peR : Pe := ⟨[secR], [], [], 0, 0, 0⟩

/-- A decoder whose every instruction has length 1. -/
def decodeOne : Nat → List Nat → Instr := fun _ _ => ⟨1, false, false, false, 0⟩

/-- The all-empty classification map. -/
def mEmpty : Nat → Nat → InstrFlags := fun _ _ => InstrFlags.empty

/-- Claim C7, counterexample: in disassemble-all mode on file bytes
`[5, 0, 7]` with no byte `VALID`, the sweep stands at offset 0 whose
byte `5` is non-zero — the claim says it decodes and prints an
instruction starting at that same offset 0.  Instead the
`while (read_byte() == 0)` loop, whose reads begin one byte past the
cursor, advances the cursor over the zero at offset 1, and the first
instruction printed starts at offset 1 (a zero byte), with no line
ever printed for offset 0. -/
theorem printDisassembly_allmode_offset_shift :
    printDisassembly decodeOne [5, 0, 7] peR secR 0 mEmpty true 10 0 =
      [Event.instr 1 1, Event.instr 2 1] ∧
    Event.instr 0 1 ∉ printDisassembly decodeOne [5, 0, 7] peR secR 0 mEmpty true 10 0 ∧
    (mEmpty 0 0).valid = false ∧ List.get? [5, 0, 7] (secR.offset + 0) = some 5 := by
  refine ⟨by decide, by decide, rfl, rfl⟩

/-- Claim C7 (amended): in disassemble-all mode at a non-`VALID`
offset, when the byte there is zero the renderer prints exactly one
gap marker and skips the entire contiguous zero run (resuming at the
first non-zero read); when the byte is non-zero it prints no marker,
but the cursor still skips past any contiguous zero bytes starting one
past the offset, and the instruction is decoded at the resulting
offset — which equals the original offset only when the following byte
is non-zero. -/
theorem printDisassembly_allmode_gap (decode : Nat → List Nat → Instr) (file : List Nat)
    (pe : Pe) (sec : Sec) (si : Nat) (m : Nat → Nat → InstrFlags) (fuel relip : Nat)
    (hnv : (m si relip).valid = false)
    (hlt : relip < sec.length) :
    (file.get? (sec.offset + relip) = some 0 →
      printDisassembly decode file pe sec si m true (fuel + 1) relip =
        Event.gap :: renderResume decode file pe sec si m
          (fun r => printDisassembly decode file pe sec si m true fuel r)
          (relip + 1 + zrun file (sec.offset + relip + 1)) ∧
      (∀ q, relip ≤ q → q < relip + 1 + zrun file (sec.offset + relip + 1) →
        file.get? (sec.offset + q) = some 0) ∧
      file.get? (sec.offset + (relip + 1 + zrun file (sec.offset + relip + 1))) ≠ some 0) ∧
    (file.get? (sec.offset + relip) ≠ some 0 →
      printDisassembly decode file pe sec si m true (fuel + 1) relip =
        renderResume decode file pe sec si m
          (fun r => printDisassembly decode file pe sec si m true fuel r)
          (relip + zrun file (sec.offset + relip + 1)) ∧
      (∀ q, relip + 1 ≤ q → q ≤ relip + zrun file (sec.offset + relip + 1) →
        file.get? (sec.offset + q) = some 0)) := by
  have hnv' : ¬(m si relip).valid = true := by rw [hnv]; exact Bool.noConfusion
  constructor
  · intro hz
    refine ⟨?_, ?_, ?_⟩
    · rw [printDisassembly]
      rw [if_pos hlt, if_neg hnv', if_pos rfl, if_pos hz]
    · intro q hq1 hq2
      by_cases hq : q = relip
      · rw [hq]; exact hz
      · rw [show sec.offset + q = (sec.offset + relip + 1) + (q - relip - 1) by omega]
        exact zrun_zeros file (q - relip - 1) (sec.offset + relip + 1) (by omega)
    · rw [show sec.offset + (relip + 1 + zrun file (sec.offset + relip + 1)) =
        (sec.offset + relip + 1) + zrun file (sec.offset + relip + 1) by omega]
      exact zrun_stop file _ (sec.offset + relip + 1) rfl
  · intro hz
    refine ⟨?_, ?_⟩
    · rw [printDisassembly]
      rw [if_pos hlt, if_neg hnv', if_pos rfl, if_neg hz]
    · intro q hq1 hq2
      rw [show sec.offset + q = (sec.offset + relip + 1) + (q - relip - 1) by omega]
      exact zrun_zeros file (q - relip - 1) (sec.offset + relip + 1) (by omega)

/-- Witness for `printDisassembly_allmode_gap` on file `[5, 0, 7]` at
offset 0 (non-zero byte followed by one zero): no gap marker, and the
decode offset shifts to 1. -/
theorem printDisassembly_allmode_gap_witness :
    (mEmpty 0 0).valid = false ∧ (0 : Nat) < secR.length ∧
      (List.get? [5, 0, 7] (secR.offset + 0) ≠ some 0 →
        printDisassembly decodeOne [5, 0, 7] peR secR 0 mEmpty true (9 + 1) 0 =
          renderResume decodeOne [5, 0, 7] peR secR 0 mEmpty
            (fun r => printDisassembly decodeOne [5, 0, 7] peR secR 0 mEmpty true 9 r)
            (0 + zrun [5, 0, 7] (secR.offset + 0 + 1)) ∧
        (∀ q, 0 + 1 ≤ q → q ≤ 0 + zrun [5, 0, 7] (secR.offset + 0 + 1) →
          List.get? [5, 0, 7] (secR.offset + q) = some 0)) :=
  ⟨rfl, by decide,
    (printDisassembly_allmode_gap decodeOne [5, 0, 7] peR secR 0 mEmpty 9 0 rfl
      (by decide)).2⟩

/-- Section/map for the default-mode gap scenario: bytes `[0, 10)`
never `VALID`, a two-byte `VALID` instruction at offset 10. -/
def secR2 : Sec := ⟨0x2000, 0, 12, 12, 0x20⟩

def peR2 : Pe := ⟨[secR2], [], [], 0, 0, 0⟩

def decodeTwo : Nat → List Nat → Instr := fun _ _ => ⟨2, false, false, false, 0⟩

def mR2 : Nat → Nat → InstrFlags := fun i b =>
  if i = 0 ∧ b = 10 then ⟨true, true, false, false⟩ else InstrFlags.empty

/-- Claim C8: in default mode at a non-`VALID` offset the renderer
prints exactly one gap marker and resumes at the next `VALID` byte, or
at `min(length, min_alloc)` when none intervenes, producing no output
for the skipped bytes; in the scenario with offsets `[0, 10)` unmarked
and a `VALID` two-byte instruction at offset 10 the full output is one
gap marker line followed by the offset-10 instruction line. -/
theorem printDisassembly_default_gap :
    (∀ (decode : Nat → List Nat → Instr) (file : List Nat) (pe : Pe) (sec : Sec)
        (si : Nat) (m : Nat → Nat → InstrFlags) (fuel relip : Nat),
        (m si relip).valid = false → relip < sec.length → relip ≤ sec.minAlloc →
        printDisassembly decode file pe sec si m false (fuel + 1) relip =
          Event.gap :: renderResume decode file pe sec si m
            (fun r => printDisassembly decode file pe sec si m false fuel r)
            (skipValid sec m si relip) ∧
        relip ≤ skipValid sec m si relip ∧
        (∀ q, relip ≤ q → q < skipValid sec m si relip → (m si q).valid = false) ∧
        ((skipValid sec m si relip < min sec.length sec.minAlloc ∧
            (m si (skipValid sec m si relip)).valid = true) ∨
          skipValid sec m si relip = min sec.length sec.minAlloc)) ∧
    printDisassembly decodeTwo (List.replicate 12 0x90) peR2 secR2 0 mR2 false 10 0 =
      [Event.gap, Event.instr 0x200A 2] := by
  constructor
  · intro decode file pe sec si m fuel relip hnv hlt hrel
    have hnv' : ¬(m si relip).valid = true := by rw [hnv]; exact Bool.noConfusion
    have hmin : relip ≤ min sec.length sec.minAlloc := by omega
    obtain ⟨h1, h2, h3⟩ := skipValid_spec sec m si relip hmin
    refine ⟨?_, h1, h2, h3⟩
    rw [printDisassembly]
    rw [if_pos hlt, if_neg hnv', if_neg (fun h => Bool.noConfusion h)]
  · decide

/-- Witness for `printDisassembly_default_gap` at the offset-10
scenario. -/
theorem printDisassembly_default_gap_witness :
    (mR2 0 0).valid = false ∧ (0 : Nat) < secR2.length ∧ (0 : Nat) ≤ secR2.minAlloc ∧
      (printDisassembly decodeTwo (List.replicate 12 0x90) peR2 secR2 0 mR2 false (9 + 1) 0 =
        Event.gap :: renderResume decodeTwo (List.replicate 12 0x90) peR2 secR2 0 mR2
          (fun r => printDisassembly decodeTwo (List.replicate 12 0x90) peR2 secR2 0 mR2
            false 9 r)
          (skipValid secR2 mR2 0 0) ∧
      (0 : Nat) ≤ skipValid secR2 mR2 0 0 ∧
      (∀ q, 0 ≤ q → q < skipValid secR2 mR2 0 0 → (mR2 0 q).valid = false) ∧
      ((skipValid secR2 mR2 0 0 < min secR2.length secR2.minAlloc ∧
          (mR2 0 (skipValid secR2 mR2 0 0)).valid = true) ∨
        skipValid secR2 mR2 0 0 = min secR2.length secR2.minAlloc)) :=
  ⟨rfl, by decide, by decide,
    printDisassembly_default_gap.1 decodeTwo (List.replicate 12 0x90) peR2 secR2 0 mR2 9 0
      rfl (by decide) (by decide)⟩

/-! ### The min_alloc boundary slip in scan_segment -/

/-- Image exhibiting the boundary comparison slip: one section
`[0x1000, 0x1008)` with `length = min_alloc = 8`. -/
def secB : Sec := ⟨0x1000, 0, 8, 8, 0x20⟩

def peB : Pe := ⟨[secB], [], [], 0, 0x1000, 0⟩

/-- Decoder for the boundary scenario: a plain 4-byte instruction at
`0x1000`, then at `0x1004` a 4-byte call to `0x1000` whose span ends
exactly at `min_alloc`. -/
def decodeB : Nat → List Nat → Instr := fun ip _ =>
  if ip = 0x1000 then ⟨4, false, false, false, 0⟩
  else if ip = 0x1004 then ⟨4, true, true, false, 0x1000⟩
  else ⟨1, false, false, false, 0⟩

def fileB : List Nat := List.replicate 8 0x90

/-- Image for the spec's strict-overrun scenario: `min_alloc = 3`
bytes past the instruction start, instruction length 5. -/
def secB2 : Sec := ⟨0x1000, 0, 3, 3, 0x20⟩

def peB2 : Pe := ⟨[secB2], [], [], 0, 0x1000, 0⟩

def decodeB2 : Nat → List Nat → Instr := fun _ _ => ⟨5, false, false, false, 0⟩

/-- Claim C2, behaviour of the code at the failing input: the second
instruction's span `[4, 8)` ends exactly at `min_alloc = 8` — it does
not extend past it — yet the break at line 201 fires, because the
comparison `i < ip + instr_length` uses the absolute `ip` (`0x1004`)
rather than the relative offset, so `i = 8 = min_alloc < 0x1008`
holds.  The branch is stopped: the call to `0x1000` is never followed
(no `FUNC` bit appears at its target) and the "scan reached the end of
section" warning is emitted.  The second conjunct shows the spec's
strict-overrun scenario, where the code does behave as the claim says:
only the three in-range bytes are marked and nothing is written at or
past `min_alloc`. -/
theorem scanSegment_boundary_slip :
    (scanSegment decodeB fileB peB 12 0x1000 emptyScanState).map
        (fun s => (s.maps 0 0, s.maps 0 4, s.maps 0 7, s.warnings)) =
      some (⟨true, true, false, false⟩, ⟨true, true, false, false⟩,
        ⟨false, true, false, false⟩, [Warning.endOfSection 0x1004]) ∧
    (scanSegment decodeB2 fileB peB2 12 0x1000 emptyScanState).map
        (fun s => (s.maps 0 0, s.maps 0 1, s.maps 0 2, s.maps 0 3, s.warnings)) =
      some (⟨true, true, false, false⟩, ⟨false, true, false, false⟩,
        ⟨false, true, false, false⟩, InstrFlags.empty, [Warning.endOfSection 0x1000]) := by
  constructor
  · decide
  · decide

end Semblance
